import Mathlib

/-!
Verification development for the sink repository: a shallow embedding of the
distributed repository-state synchronization layer (change watcher, peer
discovery, cross-machine aggregation, update channel) together with theorems
settling the specification claims.
-/

namespace Sink

/-! ## Data model (from packages/web/src/types.ts and the server services) -/

/-- LatestCommit data (types.ts, CommitInfo). Timestamps are epoch millis. -/
structure CommitInfo where
  hash : String
  shortHash : String
  message : String
  author : String
  date : String
  timestamp : Nat
deriving Repr, DecidableEq

/-- RepositoryStatus (types.ts, RepoStatus). -/
structure RepoStatus where
  branch : String
  ahead : Nat
  behind : Nat
  staged : Nat
  modified : Nat
  untracked : Nat
  stashes : Nat
  isClean : Bool
  hasRemote : Bool
  conflicted : Nat
  conflictedFiles : List String
  mergeInProgress : Bool
  rebaseInProgress : Bool
deriving Repr, DecidableEq

/-- RepositoryIdentity (scanner.ts, RepoInfo). -/
structure RepoInfo where
  id : String
  name : String
  path : String
deriving Repr, DecidableEq

/-- RepositorySnapshot (types.ts, RepoWithStatus). -/
structure RepoWithStatus where
  id : String
  name : String
  path : String
  status : RepoStatus
  latestCommit : Option CommitInfo
deriving Repr, DecidableEq

/-- Peer record (discovery.ts, interface Peer). -/
structure Peer where
  id : String
  name : String
  host : String
  port : Nat
  addresses : List String
  lastSeen : Nat
deriving Repr, DecidableEq

/-! ## GitWatcher state and unwatchRepo (watcher.ts) -/

/-- The mutable state of GitWatcher: `watchers` maps a repository id to its
open FSWatcher handles (modelled by their count), `timers` maps a repository
id to the absolute time at which its pending debounce timer fires. -/
structure WatcherState where
  watchers : List (String × Nat)
  timers : List (String × Nat)
deriving Repr, DecidableEq

/-- watcher.ts, unwatchRepo: close and drop the observation handles for the
id, clear and drop the pending debounce timer for the id. Absent entries are
left alone (Map.get returns undefined and the guarded branches are skipped). -/
def unwatchRepo (s : WatcherState) (repoId : String) : WatcherState :=
  { watchers := s.watchers.filter (fun p => decide (p.1 ≠ repoId)),
    timers := s.timers.filter (fun p => decide (p.1 ≠ repoId)) }

/-! ## Push channel inbound frames (server entry point, /ws handler) -/

/-- A JSON value, as produced by JSON.parse. -/
inductive Json where
  | null : Json
  | bool (b : Bool) : Json
  | num (n : Int) : Json
  | str (s : String) : Json
  | arr (xs : List Json) : Json
  | obj (fields : List (String × Json)) : Json

/-- Reading `msg.type` from a parsed JSON value: only objects carry fields;
the first field named "type" wins. -/
def typeField : Json → Option Json
  | .obj fields => (fields.find? (fun f => f.1 == "type")).map (fun f => f.2)
  | _ => none

/-- The strict comparison `msg.type === "ping"` from the /ws message handler. -/
def isPingMsg (j : Json) : Bool :=
  match typeField j with
  | some (.str s) => s == "ping"
  | _ => false

/-- Outbound frames the /ws message handler can produce. -/
inductive OutFrame where
  | pong : OutFrame
deriving Repr, DecidableEq

/-- Result of handling one inbound frame: replies sent, and whether the
handler closed the connection. -/
structure HandlerResult where
  replies : List OutFrame
  closed : Bool
deriving Repr, DecidableEq

/-- The /ws "message" handler (server entry point): JSON.parse the frame
(`parsed` is `none` when parsing throws, in which case the catch block
ignores the frame); reply with a pong frame exactly when the parsed message
has type "ping". The handler never closes the socket. -/
def handleFrame (parsed : Option Json) : HandlerResult :=
  match parsed with
  | some j => if isPingMsg j then ⟨[.pong], false⟩ else ⟨[], false⟩
  | none => ⟨[], false⟩

/-! ## Discovery service (discovery.ts) -/

/-- A service record observed by the mDNS browser: the fields of
bonjour-service Service that the handlers read. `txtId` models
`service.txt?.id`, which in JS is falsy (and falls through the `||`) when the
txt record is missing, the id key is missing, or the id is the empty string. -/
structure ServiceRecord where
  name : String
  host : String
  port : Nat
  addresses : List String
  txtId : Option String
deriving Repr, DecidableEq

/-- The derived identifier of a service record:
`service.txt?.id || name-port` (discovery.ts, both the up and down handlers). -/
def deriveServiceId (s : ServiceRecord) : String :=
  match s.txtId with
  | some i => if i = "" then s.name ++ "-" ++ toString s.port else i
  | none => s.name ++ "-" ++ toString s.port

/-- The Peer record built by the up handler from a service record at time `now`. -/
def mkPeer (s : ServiceRecord) (now : Nat) : Peer :=
  { id := deriveServiceId s
    name := s.name
    host := s.host
    port := s.port
    addresses := s.addresses
    lastSeen := now }

/-- JS `Map.get(k)` on the peer map (keyed by peer id). -/
def mapGet (k : String) (peers : List Peer) : Option Peer :=
  peers.find? (fun q => q.id == k)

/-- JS `Map.set(k, v)` on the peer map: replace in place when the key exists
(insertion order is preserved), append otherwise. -/
def mapSet (k : String) (v : Peer) (peers : List Peer) : List Peer :=
  if peers.any (fun q => q.id == k) then
    peers.map (fun q => if q.id = k then v else q)
  else
    peers ++ [v]

/-- JS `Map.delete(k)` on the peer map. -/
def mapDelete (k : String) (peers : List Peer) : List Peer :=
  peers.filter (fun q => decide (q.id ≠ k))

/-- The browser "up" handler (discovery.ts): derive the id; discard records
whose id equals the local selfId; otherwise build the Peer (with lastSeen =
now), store it under its id, and emit it as a peer:up notification. Returns
the new peer map and the list of peer:up emissions. -/
def upEvent (selfId : String) (peers : List Peer) (s : ServiceRecord) (now : Nat) :
    List Peer × List Peer :=
  let sid := deriveServiceId s
  if sid = selfId then (peers, [])
  else (mapSet sid (mkPeer s now) peers, [mkPeer s now])

/-- Fold a sequence of "up" events (each a service record with its sighting
time) over the peer map, collecting all peer:up emissions in order. -/
def runUpEvents (selfId : String) : List (ServiceRecord × Nat) → List Peer → List Peer × List Peer
  | [], peers => (peers, [])
  | (s, now) :: rest, peers =>
      let step := upEvent selfId peers s now
      let tail := runUpEvents selfId rest step.1
      (tail.1, step.2 ++ tail.2)

/-- The browser "down" handler (discovery.ts): derive the id; if a peer with
that id is present, delete it and emit it as a peer:down notification,
otherwise do nothing. Returns the new peer map and the peer:down emissions. -/
def downEvent (peers : List Peer) (s : ServiceRecord) : List Peer × List Peer :=
  match mapGet (deriveServiceId s) peers with
  | some p => (mapDelete (deriveServiceId s) peers, [p])
  | none => (peers, [])

/-! ## Freshness comparison (RepoCard.tsx) -/

/-- The three freshness badges rendered in the Other Machines panel. -/
inductive FreshnessBadge where
  | newer : FreshnessBadge
  | older : FreshnessBadge
  | synced : FreshnessBadge
deriving Repr, DecidableEq

/-- RepoCard.tsx, Other Machines rows: the badge shown for another machine
om, comparing the latest commit of om with the latest commit of this card.
Rendered only when both sides have a commit; strictly greater timestamp on
om shows NEWER, strictly smaller shows OLDER, equal shows SYNCED. -/
def freshnessBadge (omCommit thisCommit : Option CommitInfo) : Option FreshnessBadge :=
  match omCommit, thisCommit with
  | some o, some t =>
      some (if t.timestamp < o.timestamp then .newer
            else if o.timestamp < t.timestamp then .older
            else .synced)
  | _, _ => none

/-- RepoCard.tsx, newerMachine: the first other machine whose latest commit
exists and is strictly newer than the latest commit of this card (the find
predicate requires both commits to exist). -/
def newerMachine (thisCommit : Option CommitInfo) (others : List (Peer × RepoWithStatus)) :
    Option (Peer × RepoWithStatus) :=
  others.find? (fun om =>
    match om.2.latestCommit, thisCommit with
    | some o, some t => decide (t.timestamp < o.timestamp)
    | _, _ => false)

/-- RepoCard.tsx, hasNewerElsewhere. -/
def hasNewerElsewhere (thisCommit : Option CommitInfo)
    (others : List (Peer × RepoWithStatus)) : Bool :=
  (newerMachine thisCommit others).isSome

/-! ## Debounced change watcher (watcher.ts, emitChange)

The debounce timers of GitWatcher form a map from repository id to a pending
timer. We model one trigger as a pair (repository id, absolute time in ms)
and process a time-ordered list of triggers: before a trigger at time t is
handled, every pending timer whose deadline has passed fires (emitting a
change event stamped with its deadline); then emitChange cancels any pending
timer for that id and replaces it with a fresh timer due at t + 300. After
the last trigger, every remaining timer eventually fires. -/

/-- One filesystem trigger: (repository id, absolute time in ms). -/
abbrev Trigger := String × Nat

/-- Pending debounce timers: repository id paired with its firing deadline. -/
abbrev Pending := List (String × Nat)

/-- watcher.ts: `private debounceMs = 300`. -/
def debounceMs : Nat := 300

/-- The pending timers whose deadline has passed at time t (these fire). -/
def firedOf (t : Nat) (pending : Pending) : Pending :=
  pending.filter (fun p => decide (p.2 ≤ t))

/-- The pending timers still live at time t. -/
def liveOf (t : Nat) (pending : Pending) : Pending :=
  pending.filter (fun p => decide (¬ p.2 ≤ t))

/-- clearTimeout plus Map.delete for one repository id. -/
def removeId (i : String) (pending : Pending) : Pending :=
  pending.filter (fun p => decide (p.1 ≠ i))

/-- Process a time-ordered trigger list against the pending timers, returning
the emitted change events as (repository id, emission time) pairs. Each
trigger first lets every due timer fire, then performs the cancel-and-replace
of emitChange for its own id; at the end all remaining timers fire. -/
def procTriggers : List Trigger → Pending → List (String × Nat)
  | [], pending => pending
  | (i, t) :: rest, pending =>
      firedOf t pending ++
        procTriggers rest ((i, t + debounceMs) :: removeId i (liveOf t pending))

/-- The change events emitted by a watcher that starts with no pending timer. -/
def watcherEmits (ts : List Trigger) : List (String × Nat) :=
  procTriggers ts []

/-- The trigger times concerning repository r, in order. -/
def rtimes (r : String) (ts : List Trigger) : List Nat :=
  (ts.filter (fun q => decide (q.1 = r))).map (fun q => q.2)

/-- The events of `es` concerning repository r. -/
def rEvents (r : String) (es : List (String × Nat)) : List (String × Nat) :=
  es.filter (fun p => decide (p.1 = r))

/-- A burst continuing a pending timer due at d: each successive trigger
arrives strictly before the current deadline, and re-arms it. -/
def burstFrom : Nat → List Nat → Prop
  | _, [] => True
  | d, t :: rest => t < d ∧ burstFrom (t + debounceMs) rest

instance : ∀ d ts, Decidable (burstFrom d ts)
  | _, [] => .isTrue trivial
  | d, t :: rest =>
      match Nat.decLt t d, instDecidableBurstFrom (t + debounceMs) rest with
      | .isTrue h1, .isTrue h2 => .isTrue ⟨h1, h2⟩
      | .isFalse h1, _ => .isFalse (fun h => h1 h.1)
      | _, .isFalse h2 => .isFalse (fun h => h2 h.2)

/-- The deadline left standing after a burst re-arms a timer due at d. -/
def finalDeadline (d : Nat) : List Nat → Nat
  | [] => d
  | t :: rest => finalDeadline (t + debounceMs) rest

/-! ## Cross-machine aggregation (RepoList.tsx) -/

/-- One entry of the aggregated view: a snapshot tagged with the machine
display name and, for remote entries, the contributing peer. -/
structure AggregatedRepo where
  repo : RepoWithStatus
  machineName : String
  peer : Option Peer
deriving Repr, DecidableEq

/-- The host:port display key used for peer deduplication. -/
def hostPort (p : Peer) : String :=
  p.host ++ ":" ++ toString p.port

/-- Tag a remote snapshot with its peer. -/
def tagPeer (p : Peer) (r : RepoWithStatus) : AggregatedRepo :=
  ⟨r, p.name, some p⟩

/-- Tag a local snapshot with the self machine name. -/
def tagLocal (selfPeer : Peer) (r : RepoWithStatus) : AggregatedRepo :=
  ⟨r, selfPeer.name, none⟩

/-- The scope filter inside the peer loop:
`selectedPeer && selectedPeer.id !== peer.id` skips the peer. -/
def scopeSkip : Option Peer → Peer → Bool
  | none, _ => false
  | some q, p => q.id != p.id

/-- The peer loop of the aggregatedRepos build (RepoList.tsx): walk the peer
directory in insertion order; a peer whose host:port was already seen is
skipped entirely (the continue fires before the scope check); otherwise the
host:port is recorded, the scope filter may skip the peer, and finally the
cached fetch result for the peer id (or the empty list when absent)
contributes its snapshots. `pr` is the peerRepos cache: `pr k = none` when
peer k was never fetched or its last fetch failed. -/
def peerEntries (pr : String → Option (List RepoWithStatus)) (sel : Option Peer) :
    List Peer → List String → List AggregatedRepo
  | [], _ => []
  | p :: rest, seen =>
      if hostPort p ∈ seen then
        peerEntries pr sel rest seen
      else if scopeSkip sel p then
        peerEntries pr sel rest (hostPort p :: seen)
      else
        ((pr p.id).getD []).map (tagPeer p) ++ peerEntries pr sel rest (hostPort p :: seen)

/-- The local part of the aggregatedRepos build: local snapshots appear when
they are loaded and the scope is all machines or the self machine. -/
def localEntries (localRepos : Option (List RepoWithStatus)) (selfPeer : Peer)
    (sel : Option Peer) : List AggregatedRepo :=
  match localRepos with
  | none => []
  | some rs =>
      match sel with
      | none => rs.map (tagLocal selfPeer)
      | some q => if q.id = selfPeer.id then rs.map (tagLocal selfPeer) else []

/-- The full aggregatedRepos build before sorting (RepoList.tsx, lines
101-129): local entries followed by the deduplicated, scope-filtered peer
entries. -/
def buildAggregated (localRepos : Option (List RepoWithStatus)) (selfPeer : Peer)
    (peers : List Peer) (pr : String → Option (List RepoWithStatus))
    (sel : Option Peer) : List AggregatedRepo :=
  localEntries localRepos selfPeer sel ++ peerEntries pr sel peers []

/-- The sort key: `a.latestCommit?.timestamp ?? 0`. -/
def commitTime (e : AggregatedRepo) : Nat :=
  (e.repo.latestCommit.map (fun c => c.timestamp)).getD 0

/-- The comparator `(a, b) => bTime - aTime` lets a stand before b exactly
when the timestamp of b is at most the timestamp of a. -/
def aggLE (a b : AggregatedRepo) : Bool :=
  decide (commitTime b ≤ commitTime a)

/-- The displayed list: the aggregated entries sorted by the descending
timestamp comparator (JS Array.sort is a stable sort consistent with the
comparator). -/
def sortAgg (l : List AggregatedRepo) : List AggregatedRepo :=
  l.mergeSort aggLE

/-- The peer id an aggregated entry is attributed to (none for local). -/
def attrib (e : AggregatedRepo) : Option String :=
  e.peer.map (fun p => p.id)

/-! ## Update channel (server entry point broadcast and useWebSocket.ts) -/

/-- The broadcast payload for a changed repository: the repo identity spread
together with the freshly computed status and latest commit
(`{...repo, status, latestCommit}` in the watcher change handler). -/
def broadcastSnapshot (repo : RepoInfo) (status : RepoStatus)
    (latestCommit : Option CommitInfo) : RepoWithStatus :=
  { id := repo.id
    name := repo.name
    path := repo.path
    status := status
    latestCommit := latestCommit }

/-- The repo-changed handler of useWebSocket.ts: when a cache is present,
replace every cached entry whose id matches the received snapshot by the
snapshot, leaving the rest untouched; a missing cache stays missing. -/
def applyRepoChanged (cache : Option (List RepoWithStatus)) (u : RepoWithStatus) :
    Option (List RepoWithStatus) :=
  match cache with
  | none => none
  | some old => some (old.map (fun r => if r.id = u.id then u else r))

/-! ## Concrete example values used by counterexamples and witnesses -/

/-- A clean status on branch main. -/
def cleanStatus : RepoStatus :=
  ⟨"main", 0, 0, 0, 0, 0, 0, true, false, 0, [], false, false⟩

/-- A commit with timestamp 100. -/
def commit100 : CommitInfo :=
  ⟨"aaaa", "aa", "first", "alice", "jan 1", 100⟩

/-- A commit with timestamp 0. -/
def commit0 : CommitInfo :=
  ⟨"bbbb", "bb", "epoch", "bob", "jan 0", 0⟩

/-- An aggregated entry whose repository has no commits. -/
def entryNoCommit : AggregatedRepo :=
  ⟨⟨"idA", "repoA", "/a", cleanStatus, none⟩, "m1", none⟩

/-- An aggregated entry whose repository has a commit with timestamp 0. -/
def entryCommit0 : AggregatedRepo :=
  ⟨⟨"idB", "repoB", "/b", cleanStatus, some commit0⟩, "m1", none⟩

/-- A small peer used in witnesses. -/
def peerA : Peer := ⟨"alpha-3847", "alpha", "10.0.0.2", 3847, [], 5⟩

/-- A second peer sharing the host and port of peerA under a different id. -/
def peerA2 : Peer := ⟨"alpha2-3847", "alpha2", "10.0.0.2", 3847, [], 6⟩

/-- A peer on a distinct host, used as the unreachable peer in witnesses. -/
def peerB : Peer := ⟨"beta-3847", "beta", "10.0.0.3", 3847, [], 7⟩

/-- The self peer used in witnesses. -/
def selfPeerW : Peer := ⟨"self-3847", "selfmachine", "localhost", 3847, [], 0⟩

/-- A snapshot held by peerA in witnesses. -/
def repoOnA : RepoWithStatus := ⟨"idC", "proj", "/c", cleanStatus, some commit100⟩

/-- A local snapshot used in witnesses. -/
def repoLocal : RepoWithStatus := ⟨"idL", "proj", "/l", cleanStatus, none⟩

/-- A peerRepos cache for witnesses: peerA fetched one snapshot, peerB absent. -/
def prW : String → Option (List RepoWithStatus) :=
  fun k => if k = "alpha-3847" then some [repoOnA] else none

/-- A cache agreeing with prW away from the id of peerB. -/
def pr2W : String → Option (List RepoWithStatus) :=
  fun k => if k = "beta-3847" then some [] else prW k

/-- A service record advertising peerA. -/
def svcA : ServiceRecord := ⟨"alpha", "10.0.0.2", 3847, [], some "alpha-3847"⟩

/-- A service record carrying the self id in its txt record. -/
def svcSelf : ServiceRecord := ⟨"selfmachine", "localhost", 3847, [], some "self-3847"⟩

/-- The status pushed through the update channel in the round-trip witness. -/
def statusW : RepoStatus :=
  ⟨"main", 2, 0, 1, 3, 0, 0, false, true, 0, [], false, false⟩

/-- The repo identity used in the round-trip witness. -/
def repoInfoW : RepoInfo := ⟨"idL", "proj", "/l"⟩

/-! ## Theorems -/

/-- Claim C8: unwatching a repository is idempotent. After unwatchRepo the
watcher holds no observation handles and no pending debounce timer for the
id; a second unwatch changes nothing; unwatching an id that holds no entries
leaves the state unchanged (and, the functions being total, raises no
error). -/
theorem unwatch_idempotent (s : WatcherState) (repoId : String) :
    (unwatchRepo s repoId).watchers.find? (fun p => p.1 == repoId) = none ∧
    (unwatchRepo s repoId).timers.find? (fun p => p.1 == repoId) = none ∧
    unwatchRepo (unwatchRepo s repoId) repoId = unwatchRepo s repoId ∧
    (s.watchers.find? (fun p => p.1 == repoId) = none →
      s.timers.find? (fun p => p.1 == repoId) = none →
      unwatchRepo s repoId = s) := by
  obtain ⟨w, t⟩ := s
  refine ⟨?_, ?_, ?_, ?_⟩
  · simp [unwatchRepo, List.find?_eq_none, List.mem_filter]
  · simp [unwatchRepo, List.find?_eq_none, List.mem_filter]
  · simp only [unwatchRepo, List.filter_filter, WatcherState.mk.injEq]
    constructor <;> exact List.filter_congr (by intro x hx; simp)
  · intro hw ht
    simp only [List.find?_eq_none] at hw ht
    simp only [unwatchRepo, WatcherState.mk.injEq]
    constructor
    · exact List.filter_eq_self.mpr (by intro a ha; simpa using hw a ha)
    · exact List.filter_eq_self.mpr (by intro a ha; simpa using ht a ha)

/-- Claim C9: the /ws handler replies with a pong frame exactly when the
inbound frame parses as a JSON message of type ping; every other frame
(including unparsable ones) produces no reply, and no inbound frame closes
the connection. -/
theorem ws_ping_pong_only (parsed : Option Json) :
    ((handleFrame parsed).replies = [OutFrame.pong] ↔
      ∃ j, parsed = some j ∧ isPingMsg j = true) ∧
    ((handleFrame parsed).replies = [OutFrame.pong] ∨ (handleFrame parsed).replies = []) ∧
    (handleFrame parsed).closed = false := by
  match parsed with
  | none => simp [handleFrame]
  | some j =>
    by_cases h : isPingMsg j
    · simp [handleFrame, h]
    · simp [handleFrame, h]

/-- Claim C10: a discovery down event whose derived identifier is absent from
the peer set changes nothing and emits nothing; when the identifier is
present, exactly that peer is deleted and emitted as peer:down; an emission
happens precisely when the identifier was present. -/
theorem discovery_down_only_known (peers : List Peer) (s : ServiceRecord) :
    (mapGet (deriveServiceId s) peers = none → downEvent peers s = (peers, [])) ∧
    (∀ p, mapGet (deriveServiceId s) peers = some p →
      downEvent peers s = (mapDelete (deriveServiceId s) peers, [p]) ∧
      mapGet (deriveServiceId s) (downEvent peers s).1 = none) ∧
    ((downEvent peers s).2 = [] ↔ mapGet (deriveServiceId s) peers = none) := by
  refine ⟨?_, ?_, ?_⟩
  · intro h; simp [downEvent, h]
  · intro p hp
    refine ⟨by simp [downEvent, hp], ?_⟩
    simp only [downEvent, hp]
    simp [mapGet, mapDelete, List.find?_eq_none, List.mem_filter]
  · cases h : mapGet (deriveServiceId s) peers <;> simp [downEvent, h]

/-- Claim C5, counterexample: a clone with no commits is not reported as
older. The Other Machines badge for a machine without commits, compared
against a clone holding a commit, is absent rather than OLDER; likewise a
clone with no commits is not flagged as having a newer copy elsewhere even
when another machine holds a commit. -/
theorem freshness_no_commits_cex :
    freshnessBadge none (some commit100) = none ∧
    freshnessBadge none (some commit100) ≠ some FreshnessBadge.older ∧
    hasNewerElsewhere none [(peerA, repoOnA)] = false := by
  refine ⟨rfl, by decide, ?_⟩
  simp [hasNewerElsewhere, newerMachine, repoOnA]

/-- Claim C5, amended: when both clones hold a commit, the comparison
reports the strictly greater timestamp as newer, the strictly smaller as
older, and equal timestamps as synced; when either clone has no commits, no
freshness comparison is reported at all, and a clone without commits is
never flagged as having a newer copy elsewhere. -/
theorem freshness_badge_amended (o t : CommitInfo) (oc : Option CommitInfo)
    (others : List (Peer × RepoWithStatus)) :
    (t.timestamp < o.timestamp → freshnessBadge (some o) (some t) = some FreshnessBadge.newer) ∧
    (o.timestamp < t.timestamp → freshnessBadge (some o) (some t) = some FreshnessBadge.older) ∧
    (o.timestamp = t.timestamp → freshnessBadge (some o) (some t) = some FreshnessBadge.synced) ∧
    freshnessBadge none (some t) = none ∧
    freshnessBadge oc none = none ∧
    newerMachine none others = none := by
  refine ⟨?_, ?_, ?_, rfl, ?_, ?_⟩
  · intro h; simp [freshnessBadge, h]
  · intro h; simp [freshnessBadge, Nat.not_lt.mpr (Nat.le_of_lt h), h]
  · intro h; simp [freshnessBadge, h]
  · cases oc <;> rfl
  · simp only [newerMachine, List.find?_eq_none]
    intro om _
    cases h : om.2.latestCommit <;> simp [h]

/-- Claim C6, counterexample: the displayed sort places an entry lacking any
commit before an entry holding a commit with timestamp 0, because the
comparator maps a missing commit to timestamp 0 and the sort is stable on
ties; so a repository lacking commits is not always placed after every
repository that has a commit. -/
theorem sort_no_commit_cex :
    sortAgg [entryNoCommit, entryCommit0] = [entryNoCommit, entryCommit0] ∧
    entryNoCommit.repo.latestCommit = none ∧
    entryCommit0.repo.latestCommit = some commit0 := by
  refine ⟨?_, rfl, rfl⟩
  exact List.mergeSort_of_sorted (by decide)

/-- Claim C6, amended: the displayed list is a permutation of the aggregated
entries ordered so that latest-commit timestamps are descending, where an
entry lacking any commit counts as timestamp 0; consequently every
repository lacking a commit is placed after every repository whose commit
timestamp is positive (an entry whose commit timestamp is exactly 0 ties
with commitless entries and may appear in any order relative to them). -/
theorem sort_descending_amended (l : List AggregatedRepo) :
    (sortAgg l).Pairwise (fun a b => commitTime b ≤ commitTime a) ∧
    List.Perm (sortAgg l) l ∧
    (sortAgg l).Pairwise
      (fun a b => ¬ (a.repo.latestCommit = none ∧ 0 < commitTime b)) := by
  have htrans : ∀ a b c : AggregatedRepo, aggLE a b → aggLE b c → aggLE a c := by
    intro a b c hab hbc
    simp only [aggLE, decide_eq_true_eq] at *
    omega
  have htotal : ∀ a b : AggregatedRepo, aggLE a b || aggLE b a := by
    intro a b
    simp only [aggLE, Bool.or_eq_true, decide_eq_true_eq]
    omega
  have hs : (sortAgg l).Pairwise (fun a b => commitTime b ≤ commitTime a) := by
    have := List.sorted_mergeSort htrans htotal l
    exact this.imp (by intro a b h; simpa [aggLE] using h)
  refine ⟨hs, List.mergeSort_perm l aggLE, ?_⟩
  refine hs.imp ?_
  intro a b hle
  rintro ⟨hnone, hpos⟩
  have : commitTime a = 0 := by simp [commitTime, hnone]
  omega

/-- Claim C7: a snapshot pushed through the update channel carries the fresh
status and latest commit intact, and the observer applies it by replacing
exactly the cached entries whose id matches, leaving every other cached
entry unchanged (and a missing cache stays missing). -/
theorem update_channel_targeted_replace (info : RepoInfo) (st : RepoStatus)
    (c : Option CommitInfo) (cache : List RepoWithStatus) :
    (broadcastSnapshot info st c).status = st ∧
    (broadcastSnapshot info st c).latestCommit = c ∧
    (broadcastSnapshot info st c).id = info.id ∧
    ((applyRepoChanged (some cache) (broadcastSnapshot info st c)).getD []).length
      = cache.length ∧
    (∀ (i : Nat) (r : RepoWithStatus), cache[i]? = some r → r.id = info.id →
      ((applyRepoChanged (some cache) (broadcastSnapshot info st c)).getD [])[i]?
        = some (broadcastSnapshot info st c)) ∧
    (∀ (i : Nat) (r : RepoWithStatus), cache[i]? = some r → r.id ≠ info.id →
      ((applyRepoChanged (some cache) (broadcastSnapshot info st c)).getD [])[i]?
        = some r) ∧
    applyRepoChanged none (broadcastSnapshot info st c) = none := by
  refine ⟨rfl, rfl, rfl, ?_, ?_, ?_, rfl⟩
  · simp [applyRepoChanged]
  · intro i r hi hid
    simp [applyRepoChanged, hi, broadcastSnapshot, hid]
  · intro i r hi hid
    simp [applyRepoChanged, hi, broadcastSnapshot, hid]

/-- Helper: replacing the entry stored under an existing key leaves the list
of stored ids unchanged. -/
theorem mapSet_ids_of_mem (k : String) (v : Peer) (peers : List Peer)
    (hv : v.id = k) (h : peers.any (fun q => q.id == k) = true) :
    (mapSet k v peers).map (fun p => p.id) = peers.map (fun p => p.id) := by
  simp only [mapSet, h, if_true]
  rw [List.map_map]
  apply List.map_congr_left
  intro q _
  by_cases hq : q.id = k
  · simp [hq, hv]
  · simp [hq]

/-- Helper: after replacing the entry under an existing key, looking the key
up finds the replacement. -/
theorem find?_mapSet_replace (k : String) (v : Peer) (hv : v.id = k) :
    ∀ peers : List Peer, peers.any (fun q => q.id == k) = true →
    ((peers.map (fun q => if q.id = k then v else q)).find? (fun q => q.id == k))
      = some v := by
  intro peers
  induction peers with
  | nil => simp
  | cons p rest ih =>
    intro h
    by_cases hp : p.id = k
    · simp [hp, hv]
    · simp only [List.any_cons, Bool.or_eq_true, beq_iff_eq, hp, false_or] at h
      simp [hp, ih h]

/-- Helper: the up-event fold preserves the self-exclusion invariant, never
emits a peer carrying the self identifier, and keeps the stored ids free of
duplicates. -/
theorem runUp_invariant (selfId : String) :
    ∀ (events : List (ServiceRecord × Nat)) (peers : List Peer),
    (∀ p ∈ peers, p.id ≠ selfId) → (peers.map (fun p => p.id)).Nodup →
    (∀ p ∈ (runUpEvents selfId events peers).1, p.id ≠ selfId) ∧
    (∀ p ∈ (runUpEvents selfId events peers).2, p.id ≠ selfId) ∧
    ((runUpEvents selfId events peers).1.map (fun p => p.id)).Nodup := by
  intro events
  induction events with
  | nil =>
    intro peers hself hkeys
    exact ⟨hself, by simp [runUpEvents], hkeys⟩
  | cons ev rest ih =>
    intro peers hself hkeys
    obtain ⟨s, now⟩ := ev
    by_cases hid : deriveServiceId s = selfId
    · have hstep : upEvent selfId peers s now = (peers, []) := by
        simp [upEvent, hid]
      have := ih peers hself hkeys
      simpa [runUpEvents, hstep] using this
    · have hstep : upEvent selfId peers s now
          = (mapSet (deriveServiceId s) (mkPeer s now) peers, [mkPeer s now]) := by
        simp [upEvent, hid]
      have hmkid : (mkPeer s now).id = deriveServiceId s := rfl
      have hself2 : ∀ p ∈ mapSet (deriveServiceId s) (mkPeer s now) peers, p.id ≠ selfId := by
        intro p hp
        unfold mapSet at hp
        by_cases hmem : peers.any (fun q => q.id == deriveServiceId s) = true
        · rw [if_pos hmem] at hp
          simp only [List.mem_map] at hp
          obtain ⟨q, hq, hqe⟩ := hp
          by_cases hqk : q.id = deriveServiceId s
          · simp only [hqk, if_true] at hqe
            rw [← hqe]
            simpa [hmkid] using hid
          · simp only [hqk, if_false] at hqe
            exact hqe ▸ hself q hq
        · rw [if_neg hmem] at hp
          simp only [List.mem_append, List.mem_singleton] at hp
          rcases hp with hp | hp
          · exact hself p hp
          · rw [hp]; simpa [hmkid] using hid
      have hkeys2 : ((mapSet (deriveServiceId s) (mkPeer s now) peers).map
          (fun p => p.id)).Nodup := by
        by_cases hmem : peers.any (fun q => q.id == deriveServiceId s) = true
        · rw [mapSet_ids_of_mem _ _ _ hmkid hmem]
          exact hkeys
        · unfold mapSet
          rw [if_neg hmem, List.map_append]
          simp only [List.map_cons, List.map_nil, hmkid]
          rw [List.nodup_append]
          refine ⟨hkeys, List.nodup_singleton _, ?_⟩
          intro x hx
          simp only [List.mem_map] at hx
          obtain ⟨q, hq, hqe⟩ := hx
          simp only [List.mem_singleton]
          have hq2 : ¬ (q.id == deriveServiceId s) = true := by
            intro hc
            exact hmem (List.any_eq_true.mpr ⟨q, hq, hc⟩)
          simp only [beq_iff_eq] at hq2
          rw [← hqe]
          exact hq2
      have hrec := ih (mapSet (deriveServiceId s) (mkPeer s now) peers) hself2 hkeys2
      have hrw : runUpEvents selfId ((s, now) :: rest) peers
          = ((runUpEvents selfId rest (mapSet (deriveServiceId s) (mkPeer s now) peers)).1,
             [mkPeer s now]
               ++ (runUpEvents selfId rest
                    (mapSet (deriveServiceId s) (mkPeer s now) peers)).2) := by
        simp [runUpEvents, hstep]
      rw [hrw]
      refine ⟨hrec.1, ?_, hrec.2.2⟩
      intro p hp
      simp only [List.cons_append, List.nil_append, List.mem_cons] at hp
      rcases hp with hp | hp
      · rw [hp]; simpa [hmkid] using hid
      · exact hrec.2.1 p hp

/-- Claim C2: over any sequence of discovery up events, a record whose
derived identifier equals the local self identifier is never inserted into
the peer set and never emitted as peer:up; every other record is upserted
keyed by its derived identifier: a repeat sighting keeps the stored ids
unchanged (no second entry) while refreshing the stored record, lastSeen
included, and a first sighting appends the new entry and emits peer:up. -/
theorem discovery_up_self_suppression_upsert
    (selfId : String) (events : List (ServiceRecord × Nat)) (peers : List Peer)
    (s : ServiceRecord) (now : Nat)
    (hself : ∀ p ∈ peers, p.id ≠ selfId)
    (hkeys : (peers.map (fun p => p.id)).Nodup) :
    (∀ p ∈ (runUpEvents selfId events peers).1, p.id ≠ selfId) ∧
    (∀ p ∈ (runUpEvents selfId events peers).2, p.id ≠ selfId) ∧
    ((runUpEvents selfId events peers).1.map (fun p => p.id)).Nodup ∧
    (deriveServiceId s = selfId → upEvent selfId peers s now = (peers, [])) ∧
    (deriveServiceId s ≠ selfId →
      peers.any (fun q => q.id == deriveServiceId s) = true →
      (upEvent selfId peers s now).1.map (fun p => p.id) = peers.map (fun p => p.id) ∧
      (upEvent selfId peers s now).1.find? (fun q => q.id == deriveServiceId s)
        = some (mkPeer s now) ∧
      (upEvent selfId peers s now).2 = [mkPeer s now]) ∧
    (deriveServiceId s ≠ selfId →
      peers.any (fun q => q.id == deriveServiceId s) = false →
      (upEvent selfId peers s now).1 = peers ++ [mkPeer s now] ∧
      (upEvent selfId peers s now).2 = [mkPeer s now]) := by
  obtain ⟨h1, h2, h3⟩ := runUp_invariant selfId events peers hself hkeys
  refine ⟨h1, h2, h3, ?_, ?_, ?_⟩
  · intro hid
    simp [upEvent, hid]
  · intro hid hmem
    have hstep : upEvent selfId peers s now
        = (mapSet (deriveServiceId s) (mkPeer s now) peers, [mkPeer s now]) := by
      simp [upEvent, hid]
    rw [hstep]
    refine ⟨mapSet_ids_of_mem (deriveServiceId s) (mkPeer s now) peers rfl hmem, ?_, rfl⟩
    unfold mapSet
    rw [if_pos hmem]
    exact find?_mapSet_replace (deriveServiceId s) (mkPeer s now) rfl peers hmem
  · intro hid hmem
    have hstep : upEvent selfId peers s now
        = (mapSet (deriveServiceId s) (mkPeer s now) peers, [mkPeer s now]) := by
      simp [upEvent, hid]
    rw [hstep]
    unfold mapSet
    rw [if_neg (by simp [hmem])]
    exact ⟨rfl, rfl⟩

/-- Witness for the discovery up claim at a concrete event sequence: the
local node sees another machine twice around its own advertisement; the
final peer set holds one entry carrying the latest sighting time, nothing in
it carries the self identifier, and the self advertisement is a no-op. -/
theorem discovery_up_self_suppression_upsert_witness :
    (∀ p ∈ (runUpEvents "self-3847" [(svcA, 5), (svcSelf, 6), (svcA, 9)] []).1,
        p.id ≠ "self-3847") ∧
    (runUpEvents "self-3847" [(svcA, 5), (svcSelf, 6), (svcA, 9)] []).1
      = [mkPeer svcA 9] ∧
    upEvent "self-3847" [] svcSelf 6 = ([], []) := by
  refine ⟨?_, by decide, ?_⟩
  · exact (discovery_up_self_suppression_upsert "self-3847"
      [(svcA, 5), (svcSelf, 6), (svcA, 9)] [] svcA 9 (by simp) (by simp)).1
  · exact (discovery_up_self_suppression_upsert "self-3847"
      [] [] svcSelf 6 (by simp) (by simp)).2.2.2.1 (by decide)

/-- Helper: unfolding the peer loop, unscoped case. -/
theorem peerEntries_cons_none (pr : String → Option (List RepoWithStatus))
    (p : Peer) (rest : List Peer) (seen : List String) :
    peerEntries pr none (p :: rest) seen
      = if hostPort p ∈ seen then peerEntries pr none rest seen
        else ((pr p.id).getD []).map (tagPeer p)
          ++ peerEntries pr none rest (hostPort p :: seen) := by
  simp [peerEntries, scopeSkip]

/-- Helper: unfolding the peer loop, scoped case. -/
theorem peerEntries_cons_some (pr : String → Option (List RepoWithStatus))
    (P p : Peer) (rest : List Peer) (seen : List String) :
    peerEntries pr (some P) (p :: rest) seen
      = if hostPort p ∈ seen then peerEntries pr (some P) rest seen
        else if P.id = p.id then
          ((pr p.id).getD []).map (tagPeer p)
            ++ peerEntries pr (some P) rest (hostPort p :: seen)
        else peerEntries pr (some P) rest (hostPort p :: seen) := by
  by_cases hid : P.id = p.id
  · simp [peerEntries, scopeSkip, hid]
  · simp [peerEntries, scopeSkip, hid]

/-- Helper: a host:port key already consumed contributes nothing further. -/
theorem peerEntries_hostPort_consumed (pr : String → Option (List RepoWithStatus))
    (key : String) :
    ∀ (peers : List Peer) (seen : List String), key ∈ seen →
    (peerEntries pr none peers seen).filter
      (fun e => (e.peer.map hostPort) == some key) = [] := by
  intro peers
  induction peers with
  | nil => intro seen _; rfl
  | cons p rest ih =>
    intro seen hkey
    rw [peerEntries_cons_none]
    by_cases hseen : hostPort p ∈ seen
    · rw [if_pos hseen]
      exact ih seen hkey
    · rw [if_neg hseen, List.filter_append]
      have hne : hostPort p ≠ key := fun hc => hseen (hc ▸ hkey)
      have h1 : (((pr p.id).getD []).map (tagPeer p)).filter
          (fun e => (e.peer.map hostPort) == some key) = [] := by
        rw [List.filter_eq_nil_iff]
        intro e he
        simp only [List.mem_map] at he
        obtain ⟨r, _, hre⟩ := he
        rw [← hre]
        simp [tagPeer, hne]
      rw [h1, List.nil_append]
      exact ih (hostPort p :: seen) (List.mem_cons_of_mem _ hkey)

/-- Helper: with a fresh host:port key, exactly the first peer record with
that host:port contributes, and it contributes exactly its cached fetch. -/
theorem peerEntries_hostPort_first (pr : String → Option (List RepoWithStatus))
    (key : String) :
    ∀ (peers : List Peer) (seen : List String), key ∉ seen →
    (peerEntries pr none peers seen).filter
        (fun e => (e.peer.map hostPort) == some key)
      = (match peers.find? (fun p => hostPort p == key) with
         | none => []
         | some p => ((pr p.id).getD []).map (tagPeer p)) := by
  intro peers
  induction peers with
  | nil => intro seen _; rfl
  | cons p rest ih =>
    intro seen hkey
    rw [peerEntries_cons_none]
    by_cases hseen : hostPort p ∈ seen
    · have hne : hostPort p ≠ key := fun hc => hkey (hc ▸ hseen)
      rw [if_pos hseen]
      rw [List.find?_cons_of_neg _ (by simpa using hne)]
      exact ih seen hkey
    · rw [if_neg hseen, List.filter_append]
      by_cases hpk : hostPort p = key
      · rw [List.find?_cons_of_pos _ (by simpa using hpk)]
        have h1 : (((pr p.id).getD []).map (tagPeer p)).filter
            (fun e => (e.peer.map hostPort) == some key)
            = ((pr p.id).getD []).map (tagPeer p) := by
          rw [List.filter_eq_self]
          intro e he
          simp only [List.mem_map] at he
          obtain ⟨r, _, hre⟩ := he
          rw [← hre]
          simp [tagPeer, hpk]
        rw [h1, peerEntries_hostPort_consumed pr key rest (hostPort p :: seen)
          (by simp [hpk]), List.append_nil]
      · rw [List.find?_cons_of_neg _ (by simpa using hpk)]
        have h1 : (((pr p.id).getD []).map (tagPeer p)).filter
            (fun e => (e.peer.map hostPort) == some key) = [] := by
          rw [List.filter_eq_nil_iff]
          intro e he
          simp only [List.mem_map] at he
          obtain ⟨r, _, hre⟩ := he
          rw [← hre]
          simp [tagPeer, hpk]
        rw [h1, List.nil_append]
        refine ih (hostPort p :: seen) ?_
        simp only [List.mem_cons, not_or]
        exact ⟨fun hc => hpk hc.symm, hkey⟩

/-- Claim C3: in the unscoped aggregated view, the entries attributed to a
given host:port are exactly the cached fetch of the first peer record with
that host:port in directory insertion order; every later record with the
same host:port contributes nothing, and the host appears exactly once. -/
theorem aggregation_dedup_first_host_port
    (localRepos : Option (List RepoWithStatus)) (selfPeer : Peer) (peers : List Peer)
    (pr : String → Option (List RepoWithStatus)) (key : String) :
    (buildAggregated localRepos selfPeer peers pr none).filter
        (fun e => (e.peer.map hostPort) == some key)
      = (match peers.find? (fun p => hostPort p == key) with
         | none => []
         | some p => ((pr p.id).getD []).map (tagPeer p)) := by
  unfold buildAggregated
  rw [List.filter_append]
  have hl : (localEntries localRepos selfPeer none).filter
      (fun e => (e.peer.map hostPort) == some key) = [] := by
    cases localRepos with
    | none => rfl
    | some rs =>
      rw [List.filter_eq_nil_iff]
      intro e he
      simp only [localEntries, List.mem_map] at he
      obtain ⟨r, _, hre⟩ := he
      rw [← hre]
      simp [tagLocal]
  rw [hl, List.nil_append]
  exact peerEntries_hostPort_first pr key peers [] (by simp)

/-- Helper: a peer id with no cached fetch result is never attributed any
entry in the unscoped peer loop. -/
theorem peerEntries_absent_attrib (pr : String → Option (List RepoWithStatus))
    (pid : String) (hnone : pr pid = none) :
    ∀ (peers : List Peer) (seen : List String),
    (peerEntries pr none peers seen).filter (fun e => attrib e == some pid) = [] := by
  intro peers
  induction peers with
  | nil => intro seen; rfl
  | cons p rest ih =>
    intro seen
    rw [peerEntries_cons_none]
    by_cases hseen : hostPort p ∈ seen
    · rw [if_pos hseen]; exact ih seen
    · rw [if_neg hseen, List.filter_append, ih (hostPort p :: seen), List.append_nil]
      rw [List.filter_eq_nil_iff]
      intro e he
      simp only [List.mem_map] at he
      obtain ⟨r, hr, hre⟩ := he
      by_cases hpid : p.id = pid
      · rw [hpid, hnone] at hr
        simp at hr
      · rw [← hre]
        simp [tagPeer, attrib, hpid]

/-- Helper: every entry of the unscoped peer loop is attributed to a peer. -/
theorem peerEntries_attrib_isSome (pr : String → Option (List RepoWithStatus)) :
    ∀ (peers : List Peer) (seen : List String),
    (peerEntries pr none peers seen).filter (fun e => (attrib e).isNone) = [] := by
  intro peers
  induction peers with
  | nil => intro seen; rfl
  | cons p rest ih =>
    intro seen
    rw [peerEntries_cons_none]
    by_cases hseen : hostPort p ∈ seen
    · rw [if_pos hseen]; exact ih seen
    · rw [if_neg hseen, List.filter_append, ih (hostPort p :: seen), List.append_nil]
      rw [List.filter_eq_nil_iff]
      intro e he
      simp only [List.mem_map] at he
      obtain ⟨r, _, hre⟩ := he
      rw [← hre]
      simp [tagPeer, attrib]

/-- Helper: entries not attributed to a given peer id do not depend on the
cached fetch result stored under that id. -/
theorem peerEntries_indep (pid : String)
    (pr pr2 : String → Option (List RepoWithStatus))
    (hagree : ∀ k, k ≠ pid → pr k = pr2 k) :
    ∀ (peers : List Peer) (seen : List String),
    (peerEntries pr none peers seen).filter (fun e => !(attrib e == some pid))
      = (peerEntries pr2 none peers seen).filter (fun e => !(attrib e == some pid)) := by
  intro peers
  induction peers with
  | nil => intro seen; rfl
  | cons p rest ih =>
    intro seen
    rw [peerEntries_cons_none, peerEntries_cons_none]
    by_cases hseen : hostPort p ∈ seen
    · rw [if_pos hseen, if_pos hseen]; exact ih seen
    · rw [if_neg hseen, if_neg hseen, List.filter_append, List.filter_append,
        ih (hostPort p :: seen)]
      by_cases hpid : p.id = pid
      · have h1 : ∀ (f : String → Option (List RepoWithStatus)),
            (((f p.id).getD []).map (tagPeer p)).filter
              (fun e => !(attrib e == some pid)) = [] := by
          intro f
          rw [List.filter_eq_nil_iff]
          intro e he
          simp only [List.mem_map] at he
          obtain ⟨r, _, hre⟩ := he
          rw [← hre]
          simp [tagPeer, attrib, hpid]
        rw [h1 pr, h1 pr2]
      · rw [hagree p.id hpid]

/-- Helper: scoping the peer loop to a peer with no cached fetch result
yields no entries at all. -/
theorem peerEntries_scoped_absent (P : Peer)
    (pr : String → Option (List RepoWithStatus)) (hnone : pr P.id = none) :
    ∀ (peers : List Peer) (seen : List String),
    peerEntries pr (some P) peers seen = [] := by
  intro peers
  induction peers with
  | nil => intro seen; rfl
  | cons p rest ih =>
    intro seen
    rw [peerEntries_cons_some]
    by_cases hseen : hostPort p ∈ seen
    · rw [if_pos hseen]; exact ih seen
    · rw [if_neg hseen]
      by_cases hid : P.id = p.id
      · rw [if_pos hid, ← hid, hnone]
        simpa using ih (hostPort p :: seen)
      · rw [if_neg hid]
        exact ih (hostPort p :: seen)

/-- Claim C4: a peer whose snapshot fetch failed or never completed (no
cached result) contributes zero entries to the aggregated view; the local
entries still appear in full; every entry not attributed to that peer is
independent of that peer having data; and scoping the view to such an
unreachable, non-self peer yields the empty list (a value, not an error). -/
theorem aggregation_unreachable_peer_isolation
    (lr : Option (List RepoWithStatus)) (selfPeer : Peer) (peers : List Peer)
    (pr pr2 : String → Option (List RepoWithStatus)) (P : Peer)
    (hnone : pr P.id = none)
    (hagree : ∀ k, k ≠ P.id → pr k = pr2 k)
    (hnotself : P.id ≠ selfPeer.id) :
    (buildAggregated lr selfPeer peers pr none).filter
        (fun e => attrib e == some P.id) = [] ∧
    (buildAggregated lr selfPeer peers pr none).filter
        (fun e => (attrib e).isNone) = (lr.getD []).map (tagLocal selfPeer) ∧
    (buildAggregated lr selfPeer peers pr none).filter
        (fun e => !(attrib e == some P.id))
      = (buildAggregated lr selfPeer peers pr2 none).filter
          (fun e => !(attrib e == some P.id)) ∧
    buildAggregated lr selfPeer peers pr (some P) = [] := by
  refine ⟨?_, ?_, ?_, ?_⟩
  · unfold buildAggregated
    rw [List.filter_append, peerEntries_absent_attrib pr P.id hnone peers [],
      List.append_nil, List.filter_eq_nil_iff]
    intro e he
    cases lr with
    | none => simp [localEntries] at he
    | some rs =>
      simp only [localEntries, List.mem_map] at he
      obtain ⟨r, _, hre⟩ := he
      rw [← hre]
      simp [tagLocal, attrib]
  · unfold buildAggregated
    rw [List.filter_append, peerEntries_attrib_isSome pr peers [], List.append_nil]
    cases lr with
    | none => rfl
    | some rs =>
      rw [List.filter_eq_self.mpr]
      · rfl
      · intro e he
        simp only [localEntries, List.mem_map] at he
        obtain ⟨r, _, hre⟩ := he
        rw [← hre]
        simp [tagLocal, attrib]
  · unfold buildAggregated
    rw [List.filter_append, List.filter_append,
      peerEntries_indep P.id pr pr2 hagree peers []]
  · unfold buildAggregated
    rw [peerEntries_scoped_absent P pr hnone peers [], List.append_nil]
    cases lr with
    | none => rfl
    | some rs =>
      simp only [localEntries]
      rw [if_neg hnotself]

/-- Witness for the unreachable-peer claim: peerA has a cached snapshot,
peerB was never fetched; the aggregated view still shows the local entry and
the entry of peerA, attributes nothing to peerB, and scoping to peerB gives
the empty list. -/
theorem aggregation_unreachable_peer_isolation_witness :
    (buildAggregated (some [repoLocal]) selfPeerW [peerA, peerB] prW none).filter
        (fun e => attrib e == some peerB.id) = [] ∧
    (buildAggregated (some [repoLocal]) selfPeerW [peerA, peerB] prW none).filter
        (fun e => (attrib e).isNone) = [tagLocal selfPeerW repoLocal] ∧
    (buildAggregated (some [repoLocal]) selfPeerW [peerA, peerB] prW none).filter
        (fun e => !(attrib e == some peerB.id))
      = (buildAggregated (some [repoLocal]) selfPeerW [peerA, peerB] pr2W none).filter
          (fun e => !(attrib e == some peerB.id)) ∧
    buildAggregated (some [repoLocal]) selfPeerW [peerA, peerB] prW (some peerB) = [] := by
  have h := aggregation_unreachable_peer_isolation (some [repoLocal]) selfPeerW
    [peerA, peerB] prW pr2W peerB (by decide)
    (by intro k hk; simp only [pr2W, peerB] at *; rw [if_neg hk])
    (by decide)
  simpa using h

/-- Helper: projecting the events of one repository commutes with any
filtering of the event list. -/
theorem rEvents_filter (r : String) (f : String × Nat → Bool) (l : List (String × Nat)) :
    rEvents r (l.filter f) = (rEvents r l).filter f := by
  simp only [rEvents, List.filter_filter]
  exact List.filter_congr (fun a _ => Bool.and_comm _ _)

/-- Helper: projection to repository r over firedOf. -/
theorem rEvents_firedOf (r : String) (t : Nat) (pending : Pending) :
    rEvents r (firedOf t pending) = firedOf t (rEvents r pending) :=
  rEvents_filter r _ pending

/-- Helper: projection to repository r over liveOf. -/
theorem rEvents_liveOf (r : String) (t : Nat) (pending : Pending) :
    rEvents r (liveOf t pending) = liveOf t (rEvents r pending) :=
  rEvents_filter r _ pending

/-- Helper: projection to repository r over removeId. -/
theorem rEvents_removeId (r i : String) (pending : Pending) :
    rEvents r (removeId i pending) = removeId i (rEvents r pending) :=
  rEvents_filter r _ pending

/-- Helper: a cons with key r projects to a cons. -/
theorem rEvents_cons_eq (r : String) (t : Nat) (l : List (String × Nat)) :
    rEvents r ((r, t) :: l) = (r, t) :: rEvents r l := by
  simp [rEvents]

/-- Helper: a cons with a foreign key projects away. -/
theorem rEvents_cons_ne (r i : String) (t : Nat) (l : List (String × Nat)) (h : i ≠ r) :
    rEvents r ((i, t) :: l) = rEvents r l := by
  simp [rEvents, h]

/-- Helper: cancelling a foreign id leaves the events of r alone. -/
theorem removeId_rEvents_ne (r i : String) (l : List (String × Nat)) (h : i ≠ r) :
    removeId i (rEvents r l) = rEvents r l := by
  apply List.filter_eq_self.mpr
  intro a ha
  simp only [rEvents, List.mem_filter, decide_eq_true_eq] at ha
  simp [ha.2, h, Ne.symm h]

/-- Helper: cancelling the id r empties the events of r. -/
theorem removeId_rEvents_self (r : String) (l : List (String × Nat)) :
    removeId r (rEvents r l) = [] := by
  unfold removeId
  rw [List.filter_eq_nil_iff]
  intro a ha
  simp only [rEvents, List.mem_filter, decide_eq_true_eq] at ha
  simp [ha.2]

/-- Helper: the projection is empty exactly when no entry has key r. -/
theorem rEvents_eq_nil_iff (r : String) (l : List (String × Nat)) :
    rEvents r l = [] ↔ ∀ p ∈ l, p.1 ≠ r := by
  unfold rEvents
  rw [List.filter_eq_nil_iff]
  simp

/-- Helper: the projection distributes over append. -/
theorem rEvents_append (r : String) (a b : List (String × Nat)) :
    rEvents r (a ++ b) = rEvents r a ++ rEvents r b := by
  simp [rEvents]

/-- Helper: the recursion step of procTriggers. -/
theorem proc_cons (i : String) (t : Nat) (rest : List Trigger) (pending : Pending) :
    procTriggers ((i, t) :: rest) pending
      = firedOf t pending
        ++ procTriggers rest ((i, t + debounceMs) :: removeId i (liveOf t pending)) := rfl

/-- Helper: with no pending timer for r and no trigger for r, the run emits
nothing for r. -/
theorem proc_no_r (r : String) :
    ∀ (ts : List Trigger) (pending : Pending),
    (∀ p ∈ pending, p.1 ≠ r) → (∀ q ∈ ts, q.1 ≠ r) →
    rEvents r (procTriggers ts pending) = [] := by
  intro ts
  induction ts with
  | nil =>
    intro pending hp _
    simp only [procTriggers]
    exact (rEvents_eq_nil_iff r pending).mpr hp
  | cons q rest ih =>
    obtain ⟨i, t⟩ := q
    intro pending hp hts
    have hi : i ≠ r := hts (i, t) (by simp)
    have h0 : rEvents r pending = [] := (rEvents_eq_nil_iff r pending).mpr hp
    rw [proc_cons, rEvents_append, rEvents_firedOf, h0]
    rw [show firedOf t ([] : Pending) = [] from rfl, List.nil_append]
    apply ih
    · intro p hpmem
      rcases List.mem_cons.mp hpmem with h | h
      · rw [h]; exact hi
      · have hin : p ∈ pending := by
          simp only [removeId, liveOf, List.mem_filter] at h
          exact h.1.1
        exact hp p hin
    · intro q hq
      exact hts q (List.mem_cons_of_mem _ hq)

/-- Helper: a single pending timer for r, with no further trigger for r,
fires exactly once at its deadline. -/
theorem proc_r_inert (r : String) (d : Nat) :
    ∀ (ts : List Trigger) (pending : Pending),
    rEvents r pending = [(r, d)] → (∀ q ∈ ts, q.1 ≠ r) →
    rEvents r (procTriggers ts pending) = [(r, d)] := by
  intro ts
  induction ts with
  | nil =>
    intro pending hp _
    simpa only [procTriggers] using hp
  | cons q rest ih =>
    obtain ⟨i, t⟩ := q
    intro pending hp hts
    have hi : i ≠ r := hts (i, t) (by simp)
    have hts' : ∀ q ∈ rest, q.1 ≠ r := fun q hq => hts q (List.mem_cons_of_mem _ hq)
    rw [proc_cons, rEvents_append, rEvents_firedOf, hp]
    have hpend : rEvents r ((i, t + debounceMs) :: removeId i (liveOf t pending))
        = liveOf t [(r, d)] := by
      rw [rEvents_cons_ne r i _ _ hi, rEvents_removeId, removeId_rEvents_ne r i _ hi,
        rEvents_liveOf, hp]
    by_cases hd : d ≤ t
    · rw [show firedOf t [(r, d)] = [(r, d)] from by simp [firedOf, hd]]
      rw [show liveOf t [(r, d)] = [] from by simp [liveOf, hd]] at hpend
      rw [proc_no_r r rest _ ((rEvents_eq_nil_iff r _).mp hpend) hts', List.append_nil]
    · rw [show firedOf t [(r, d)] = [] from by simp [firedOf, hd]]
      rw [show liveOf t [(r, d)] = [(r, d)] from by simp [liveOf, hd]; omega] at hpend
      rw [List.nil_append]
      exact ih _ hpend hts'

/-- Helper: a pending timer for r due at d, re-armed by a burst of r-triggers
each arriving strictly inside the current window, fires exactly once, at the
deadline left by the last trigger. -/
theorem proc_r_burst (r : String) :
    ∀ (ts : List Trigger) (pending : Pending) (d : Nat),
    rEvents r pending = [(r, d)] →
    List.Pairwise (fun a b : Trigger => a.2 ≤ b.2) ts →
    burstFrom d (rtimes r ts) →
    rEvents r (procTriggers ts pending) = [(r, finalDeadline d (rtimes r ts))] := by
  intro ts
  induction ts with
  | nil =>
    intro pending d hp _ _
    simpa only [procTriggers, rtimes, List.filter_nil, List.map_nil, finalDeadline] using hp
  | cons q rest ih =>
    obtain ⟨i, t⟩ := q
    intro pending d hp hsort hburst
    have hhead := (List.pairwise_cons.mp hsort).1
    have hsort' := (List.pairwise_cons.mp hsort).2
    by_cases hi : i = r
    · subst hi
      have hrt : rtimes i ((i, t) :: rest) = t :: rtimes i rest := by simp [rtimes]
      rw [hrt] at hburst ⊢
      obtain ⟨htd, hburst'⟩ := hburst
      rw [proc_cons, rEvents_append, rEvents_firedOf, hp]
      rw [show firedOf t [(i, d)] = [] from by simp [firedOf]; omega]
      rw [List.nil_append]
      have hpend : rEvents i ((i, t + debounceMs) :: removeId i (liveOf t pending))
          = [(i, t + debounceMs)] := by
        rw [rEvents_cons_eq, rEvents_removeId, removeId_rEvents_self]
      rw [show finalDeadline d (t :: rtimes i rest)
            = finalDeadline (t + debounceMs) (rtimes i rest) from rfl]
      exact ih _ (t + debounceMs) hpend hsort' hburst'
    · have hrt : rtimes r ((i, t) :: rest) = rtimes r rest := by simp [rtimes, hi]
      rw [hrt] at hburst ⊢
      rw [proc_cons, rEvents_append, rEvents_firedOf, hp]
      have hpend : rEvents r ((i, t + debounceMs) :: removeId i (liveOf t pending))
          = liveOf t [(r, d)] := by
        rw [rEvents_cons_ne r i _ _ hi, rEvents_removeId, removeId_rEvents_ne r i _ hi,
          rEvents_liveOf, hp]
      cases hrts : rtimes r rest with
      | nil =>
        simp only [finalDeadline]
        have hnor : ∀ q ∈ rest, q.1 ≠ r := by
          intro q hq hc
          have hmem : q.2 ∈ rtimes r rest := by
            unfold rtimes
            exact List.mem_map_of_mem _ (List.mem_filter.mpr ⟨hq, by simp [hc]⟩)
          rw [hrts] at hmem
          simp at hmem
        by_cases hd : d ≤ t
        · rw [show firedOf t [(r, d)] = [(r, d)] from by simp [firedOf, hd]]
          rw [show liveOf t [(r, d)] = [] from by simp [liveOf, hd]] at hpend
          rw [proc_no_r r rest _ ((rEvents_eq_nil_iff r _).mp hpend) hnor, List.append_nil]
        · rw [show firedOf t [(r, d)] = [] from by simp [firedOf, hd]]
          rw [show liveOf t [(r, d)] = [(r, d)] from by simp [liveOf, hd]; omega] at hpend
          rw [List.nil_append]
          exact proc_r_inert r d rest _ hpend hnor
      | cons t1 rts2 =>
        rw [hrts] at hburst
        have ht1d : t1 < d := hburst.1
        have hex : ∃ q0, q0 ∈ rest ∧ q0.1 = r ∧ q0.2 = t1 := by
          cases hfil : rest.filter (fun q => decide (q.1 = r)) with
          | nil =>
            exfalso
            unfold rtimes at hrts
            rw [hfil] at hrts
            simp at hrts
          | cons q0 l0 =>
            have hq0f : q0 ∈ rest.filter (fun q => decide (q.1 = r)) := by
              rw [hfil]; exact List.mem_cons_self q0 l0
            refine ⟨q0, List.mem_of_mem_filter hq0f, ?_, ?_⟩
            · simpa using List.of_mem_filter hq0f
            · unfold rtimes at hrts
              rw [hfil] at hrts
              simp only [List.map_cons, List.cons.injEq] at hrts
              exact hrts.1
        obtain ⟨q0, hq0mem, hq0r, hq0t⟩ := hex
        have htt1 : t ≤ t1 := by
          have := hhead q0 hq0mem
          rw [hq0t] at this
          exact this
        have hd : ¬ d ≤ t := by omega
        rw [show firedOf t [(r, d)] = [] from by simp [firedOf, hd]]
        rw [show liveOf t [(r, d)] = [(r, d)] from by simp [liveOf, hd]; omega] at hpend
        rw [List.nil_append]
        have happ := ih _ d hpend hsort' (by rw [hrts]; exact hburst)
        rw [hrts] at happ
        exact happ

/-- Helper: before any trigger for r has arrived, the run behaves on r as
the burst lemma describes from the first r-trigger on. -/
theorem proc_r_start (r : String) :
    ∀ (ts : List Trigger) (pending : Pending),
    rEvents r pending = [] →
    List.Pairwise (fun a b : Trigger => a.2 ≤ b.2) ts →
    ∀ (t0 : Nat) (rts1 : List Nat), rtimes r ts = t0 :: rts1 →
    burstFrom (t0 + debounceMs) rts1 →
    rEvents r (procTriggers ts pending) = [(r, finalDeadline (t0 + debounceMs) rts1)] := by
  intro ts
  induction ts with
  | nil =>
    intro pending _ _ t0 rts1 h
    simp [rtimes] at h
  | cons q rest ih =>
    obtain ⟨i, t⟩ := q
    intro pending hp hsort t0 rts1 hrt hburst
    have hsort' := (List.pairwise_cons.mp hsort).2
    by_cases hi : i = r
    · subst hi
      have hrt2 : rtimes i ((i, t) :: rest) = t :: rtimes i rest := by simp [rtimes]
      rw [hrt2] at hrt
      have ht0 : t = t0 := by
        have := congrArg List.head? hrt
        simpa using this
      have hrts1 : rtimes i rest = rts1 := by
        have := congrArg List.tail hrt
        simpa using this
      subst ht0
      rw [proc_cons, rEvents_append, rEvents_firedOf, hp]
      rw [show firedOf t ([] : Pending) = [] from rfl, List.nil_append]
      have hpend : rEvents i ((i, t + debounceMs) :: removeId i (liveOf t pending))
          = [(i, t + debounceMs)] := by
        rw [rEvents_cons_eq, rEvents_removeId, removeId_rEvents_self]
      have := proc_r_burst i rest
        ((i, t + debounceMs) :: removeId i (liveOf t pending))
        (t + debounceMs) hpend hsort' (by rw [hrts1]; exact hburst)
      rw [hrts1] at this
      exact this
    · have hrt2 : rtimes r ((i, t) :: rest) = rtimes r rest := by simp [rtimes, hi]
      rw [hrt2] at hrt
      rw [proc_cons, rEvents_append, rEvents_firedOf, hp]
      rw [show firedOf t ([] : Pending) = [] from rfl, List.nil_append]
      have hpend : rEvents r ((i, t + debounceMs) :: removeId i (liveOf t pending)) = [] := by
        rw [rEvents_cons_ne r i _ _ hi, rEvents_removeId, removeId_rEvents_ne r i _ hi,
          rEvents_liveOf, hp]
        rfl
      exact ih _ hpend hsort' t0 rts1 hrt hburst

/-- Helper: the deadline surviving a burst is 300 ms past its last trigger. -/
theorem finalDeadline_getLastD :
    ∀ (rts1 : List Nat) (t0 : Nat),
    finalDeadline (t0 + debounceMs) rts1 = rts1.getLastD t0 + debounceMs := by
  intro rts1
  induction rts1 with
  | nil => intro t0; rfl
  | cons u l ih =>
    intro t0
    simp only [finalDeadline, List.getLastD_cons]
    exact ih u

/-- Claim C1: for a watched repository r, a burst of one or more triggers in
which each successive trigger arrives strictly less than 300 ms after the
previous one (so each cancels and replaces the pending timer) produces
exactly one change event for r, emitted 300 ms after the last trigger of
the burst; triggers of other repositories may be interleaved freely. -/
theorem watcher_debounce_single_event (r : String) (ts : List Trigger)
    (t0 : Nat) (rts1 : List Nat)
    (hsort : List.Pairwise (fun a b : Trigger => a.2 ≤ b.2) ts)
    (hr : rtimes r ts = t0 :: rts1)
    (hburst : burstFrom (t0 + debounceMs) rts1) :
    rEvents r (watcherEmits ts) = [(r, rts1.getLastD t0 + debounceMs)] := by
  rw [← finalDeadline_getLastD]
  exact proc_r_start r ts [] rfl hsort t0 rts1 hr hburst

/-- Witness for the debounce claim: repository a is triggered at 0, 100 and
250 ms with a trigger of repository b interleaved at 10 ms and another at
900 ms; the run emits exactly one change event for a, at 550 ms. -/
theorem watcher_debounce_single_event_witness :
    rEvents "a" (watcherEmits [("a", 0), ("b", 10), ("a", 100), ("a", 250), ("b", 900)])
      = [("a", 550)] := by
  have h := watcher_debounce_single_event "a"
    [("a", 0), ("b", 10), ("a", 100), ("a", 250), ("b", 900)]
    0 [100, 250] (by decide) (by decide) (by decide)
  simpa using h

end Sink
